import Mathlib

/-!
# Verification of a Sudoku backtracking solver

Shallow embedding of the solver in `sudoku_solver.c`: a 9x9 grid with
per-(row, col, value) constraint counters (`constraints`), per-cell
committed flags (`inserted`), a committed-cell counter (`ninserted`) and a
diagnostic backtrack counter (`nbacktracks`).  The C arrays of `int` are
modelled as functions on `Fin 9` into `ℤ` (all values stay far below any
machine-integer bound, so no wrap-around modelling is needed).
-/

/-- The `sudoku` struct of the C program.  `constraints[r][c][v]`,
`inserted[r][c]`, `ninserted`, `nbacktracks`. -/
@[ext]
structure sudoku where
  constraints : Fin 9 → Fin 9 → Fin 9 → ℤ
  inserted : Fin 9 → Fin 9 → Bool
  ninserted : ℤ
  nbacktracks : ℤ

/-- `new_sudoku`: everything zeroed / uncommitted. -/
def new_sudoku : sudoku :=
  { constraints := fun _ _ _ => 0
    inserted := fun _ _ => false
    ninserted := 0
    nbacktracks := 0 }

/-- Net number of times the three sweep loops of `change_state_at` hit the
slot `constraints[i][j][w]` during an operation at `(row, col, number)`:
the row loop hits it when `i = row ∧ w = number` (iteration `a = j`), the
column loop when `j = col ∧ w = number` (iteration `a = i`), the
value loop `constraints[row][col][a] += shift` when `i = row ∧ j = col`
(iteration `a = w`), and the box loop when `(i, j)` lies in the box of
`(row, col)` and `w = number`. -/
def sweepDelta (row col number i j w : Fin 9) : ℤ :=
  (if i = row ∧ w = number then 1 else 0) +
  (if j = col ∧ w = number then 1 else 0) +
  (if i = row ∧ j = col then 1 else 0) +
  (if (i : ℕ) / 3 = (row : ℕ) / 3 ∧ (j : ℕ) / 3 = (col : ℕ) / 3 ∧ w = number then 1 else 0)

/-- The constraint array right after the sweep loops of `change_state_at`
(before the final reset of the slot `[row][col][number]` to 0). -/
def sweeps (s : sudoku) (row col number : Fin 9) (type : ℤ) : Fin 9 → Fin 9 → Fin 9 → ℤ :=
  fun i j w => s.constraints i j w + type * sweepDelta row col number i j w

/-- `change_state_at(s, row, col, number, type)`:
sets the `inserted` flag (`type == -1` clears it, otherwise sets it), runs
the three `+= shift` sweep loops over the constraint array, resets the slot
`constraints[row][col][number]` to 0, and adds `type` to `ninserted`. -/
def change_state_at (s : sudoku) (row col number : Fin 9) (type : ℤ) : sudoku :=
  { constraints := fun i j w =>
      if i = row ∧ j = col ∧ w = number then 0
      else sweeps s row col number type i j w
    inserted := fun i j =>
      if i = row ∧ j = col then (if type = -1 then false else true)
      else s.inserted i j
    ninserted := s.ninserted + type
    nbacktracks := s.nbacktracks }

/-- Entry assertions of `change_state_at`: `type` is `±1` and the slot of
the operated value at the operated cell is 0.  (The range assertion on
`number` is captured by the `Fin 9` type.) -/
def change_state_pre (s : sudoku) (row col number : Fin 9) (type : ℤ) : Prop :=
  (type = -1 ∨ type = 1) ∧ s.constraints row col number = 0

/-- `insert_number_at`. -/
def insert_number_at (s : sudoku) (row col number : Fin 9) : sudoku :=
  change_state_at s row col number 1

/-- `remove_number_at`. -/
def remove_number_at (s : sudoku) (row col number : Fin 9) : sudoku :=
  change_state_at s row col number (-1)

/-- `get_possibilities_at`: the values (in ascending order) whose
constraint slot at the cell is 0. -/
def get_possibilities_at (s : sudoku) (row col : Fin 9) : List (Fin 9) :=
  (List.finRange 9).filter (fun n => s.constraints row col n = 0)

/-- The `poss_counter` out-parameter of `get_possibilities_at`. -/
def possCount (s : sudoku) (row col : Fin 9) : ℕ :=
  (get_possibilities_at s row col).length

theorem sweepDelta_self (row col number : Fin 9) :
    sweepDelta row col number row col number = 4 := by
  simp [sweepDelta]

theorem sweepDelta_nonneg (row col number i j w : Fin 9) :
    0 ≤ sweepDelta row col number i j w := by
  unfold sweepDelta
  split <;> split <;> split <;> split <;> norm_num

/-- The C `assert(s->constraints[row][col][number] == shift*4)` holds:
value of the slot after the sweeps, given the entry assertion. -/
theorem sweeps_self (s : sudoku) (row col number : Fin 9) (type : ℤ)
    (h : s.constraints row col number = 0) :
    sweeps s row col number type row col number = type * 4 := by
  simp [sweeps, h, sweepDelta_self]

/-- C4: during `change_state_at` at `(row, col, number)` the sweep loops hit
the slot `constraints[row][col][number]` exactly 4 times, so after the
sweeps its value is `shift * 4` (4 on insertion, -4 on removal), as the
internal assertion demands. -/
theorem claim4_sweep_assert (s : sudoku) (row col number : Fin 9) (type : ℤ)
    (h : s.constraints row col number = 0) :
    sweepDelta row col number row col number = 4 ∧
    sweeps s row col number type row col number = type * 4 :=
  ⟨sweepDelta_self row col number, sweeps_self s row col number type h⟩

/-- Witness for C4: concrete run on the empty state at cell (0,0), value 0,
on insertion (`type = 1`). -/
theorem claim4_sweep_assert_witness :
    sweepDelta 0 0 0 0 0 0 = 4 ∧ sweeps new_sudoku 0 0 0 1 0 0 0 = 1 * 4 :=
  claim4_sweep_assert new_sudoku 0 0 0 1 rfl

theorem insert_remove_eq (s : sudoku) (r c v : Fin 9)
    (hins : s.inserted r c = false) (hcon : s.constraints r c v = 0) :
    remove_number_at (insert_number_at s r c v) r c v = s := by
  unfold remove_number_at insert_number_at change_state_at sweeps
  ext i j w
  · by_cases h : i = r ∧ j = c ∧ w = v
    · obtain ⟨h1, h2, h3⟩ := h
      subst h1; subst h2; subst h3
      simp [hcon]
    · simp only [h, if_false]
      ring
  · by_cases h : i = r ∧ j = c
    · obtain ⟨h1, h2⟩ := h
      subst h1; subst h2
      simp [hins]
    · simp [h]
  · ring
  · rfl

/-- C3: a commit at an uncommitted cell with a zero constraint slot,
immediately followed by the matching retract, restores the state exactly. -/
theorem claim3_insert_remove_id (s : sudoku) (r c v : Fin 9)
    (hins : s.inserted r c = false) (hcon : s.constraints r c v = 0) :
    remove_number_at (insert_number_at s r c v) r c v = s :=
  insert_remove_eq s r c v hins hcon

/-- Witness for C3 at a concrete state: empty board, cell (0,0), value 0. -/
theorem claim3_insert_remove_id_witness :
    remove_number_at (insert_number_at new_sudoku 0 0 0) 0 0 0 = new_sudoku :=
  claim3_insert_remove_id new_sudoku 0 0 0 rfl rfl

/-! ## Ghost state: the partial assignment abstracted by a solver state

The C struct stores no value array: the committed value of a cell exists
only implicitly (in the constraint counters).  We track it as a ghost
partial grid alongside the concrete state and prove that every state
reachable by valid commits and retracts is the exact image of its ghost
grid. -/

/-- A partial assignment: each cell holds a value or is blank. -/
abbrev Grid := Fin 9 → Fin 9 → Option (Fin 9)

/-- Point update of a grid. -/
def updateG (g : Grid) (r c : Fin 9) (x : Option (Fin 9)) : Grid :=
  fun i j => if i = r ∧ j = c then x else g i j

/-- The empty assignment. -/
def emptyG : Grid := fun _ _ => none

/-- Number of unit groups (row, column, box) shared by cells `(r,c)` and
`(i,j)`. -/
def sharedGroups (r c i j : Fin 9) : ℕ :=
  (if i = r then 1 else 0) + (if j = c then 1 else 0) +
  (if (i : ℕ) / 3 = (r : ℕ) / 3 ∧ (j : ℕ) / 3 = (c : ℕ) / 3 then 1 else 0)

/-- Net contribution of a committed cell `(r,c)` holding `v` to the
constraint slot `[i][j][w]`, as effected by `change_state_at`: at the
committed cell itself, 1 for every other value and 0 for its own value
(after the reset); elsewhere, one unit per shared group when `w = v`. -/
def contrib (r c v i j w : Fin 9) : ℕ :=
  if i = r ∧ j = c then (if w = v then 0 else 1)
  else if w = v then sharedGroups r c i j else 0

/-- Contribution of grid cell `p` to slot `[i][j][w]` (0 when blank). -/
def cellContrib (g : Grid) (p : Fin 9 × Fin 9) (i j w : Fin 9) : ℕ :=
  match g p.1 p.2 with
  | none => 0
  | some v => contrib p.1 p.2 v i j w

/-- The value the constraint array must hold at slot `[i][j][w]` in any
state whose commits are exactly the cells of `g`. -/
def constraintsOf (g : Grid) (i j w : Fin 9) : ℕ :=
  ∑ p : Fin 9 × Fin 9, cellContrib g p i j w

/-- The set of committed cells of a grid. -/
def filledCells (g : Grid) : Finset (Fin 9 × Fin 9) :=
  Finset.univ.filter (fun p => (g p.1 p.2).isSome)

/-- Number of committed cells. -/
def countFilled (g : Grid) : ℕ := (filledCells g).card

/-- No two distinct cells sharing a row, column or box hold the same
value. -/
def Consistent (g : Grid) : Prop :=
  ∀ r c i j v, g r c = some v → g i j = some v → ¬(r = i ∧ c = j) →
    sharedGroups r c i j = 0

/-- The concrete solver state is the exact image of the ghost grid:
constraint slots, committed flags and the committed-cell counter all
match. -/
def Abstracts (s : sudoku) (g : Grid) : Prop :=
  (∀ i j w, s.constraints i j w = (constraintsOf g i j w : ℤ)) ∧
  (∀ i j, s.inserted i j = (g i j).isSome) ∧
  s.ninserted = (countFilled g : ℤ)

/-- States reachable from the empty state by valid commits (cell
uncommitted, zero constraint count for the value) and valid retracts
(retracting exactly a previously committed value), together with their
ghost grids. -/
inductive Reach : sudoku → Grid → Prop
  | init : Reach new_sudoku emptyG
  | insert (s : sudoku) (g : Grid) (r c v : Fin 9) : Reach s g →
      s.inserted r c = false → s.constraints r c v = 0 →
      Reach (insert_number_at s r c v) (updateG g r c (some v))
  | remove (s : sudoku) (g : Grid) (r c v : Fin 9) : Reach s g →
      g r c = some v →
      Reach (remove_number_at s r c v) (updateG g r c none)

/-- States reachable from the empty state by valid commits only (no
retracts). -/
inductive ReachC : sudoku → Grid → Prop
  | init : ReachC new_sudoku emptyG
  | insert (s : sudoku) (g : Grid) (r c v : Fin 9) : ReachC s g →
      s.inserted r c = false → s.constraints r c v = 0 →
      ReachC (insert_number_at s r c v) (updateG g r c (some v))

theorem reach_of_reachC {s : sudoku} {g : Grid} (h : ReachC s g) : Reach s g := by
  induction h with
  | init => exact Reach.init
  | insert s g r c v _ h1 h2 ih => exact Reach.insert s g r c v ih h1 h2

/-! ## Basic lemmas on the ghost formula -/

theorem eq_none_of_isSome_false {o : Option (Fin 9)} (h : o.isSome = false) :
    o = none := by
  cases o <;> simp_all

theorem sharedGroups_comm (r c i j : Fin 9) :
    sharedGroups r c i j = sharedGroups i j r c := by
  unfold sharedGroups
  have e1 : (i = r) = (r = i) := propext ⟨Eq.symm, Eq.symm⟩
  have e2 : (j = c) = (c = j) := propext ⟨Eq.symm, Eq.symm⟩
  have e3 : ((i : ℕ) / 3 = (r : ℕ) / 3 ∧ (j : ℕ) / 3 = (c : ℕ) / 3) =
      ((r : ℕ) / 3 = (i : ℕ) / 3 ∧ (c : ℕ) / 3 = (j : ℕ) / 3) :=
    propext ⟨fun h => ⟨h.1.symm, h.2.symm⟩, fun h => ⟨h.1.symm, h.2.symm⟩⟩
  simp only [e1, e2, e3]

theorem contrib_self (r c v w : Fin 9) :
    contrib r c v r c w = if w = v then 0 else 1 := by
  simp [contrib]

/-- The correspondence at the heart of the invariant: away from the reset
slot `(row, col, number)`, the sweep hits of `change_state_at` are exactly
the ghost contribution of the operated cell. -/
theorem sweepDelta_eq_contrib (r c v i j w : Fin 9)
    (h : ¬(i = r ∧ j = c ∧ w = v)) :
    sweepDelta r c v i j w = (contrib r c v i j w : ℤ) := by
  unfold sweepDelta contrib sharedGroups
  by_cases hij : i = r ∧ j = c
  · have hw : ¬ w = v := fun hw => h ⟨hij.1, hij.2, hw⟩
    obtain ⟨h1, h2⟩ := hij
    subst h1; subst h2
    simp [hw]
  · simp only [hij, if_false]
    by_cases hw : w = v
    · subst hw
      by_cases h1 : i = r <;> by_cases h2 : j = c <;>
        by_cases h3 : (i : ℕ) / 3 = (r : ℕ) / 3 ∧ (j : ℕ) / 3 = (c : ℕ) / 3 <;>
        simp_all
    · simp [hw, hij]

theorem cellContrib_update_ne (g : Grid) (r c : Fin 9) (x : Option (Fin 9))
    (p : Fin 9 × Fin 9) (hp : p ≠ (r, c)) (i j w : Fin 9) :
    cellContrib (updateG g r c x) p i j w = cellContrib g p i j w := by
  have : ¬(p.1 = r ∧ p.2 = c) := by
    intro hc
    exact hp (Prod.ext hc.1 hc.2)
  simp [cellContrib, updateG, this]

theorem cellContrib_at (g : Grid) (r c v : Fin 9) (h : g r c = some v)
    (i j w : Fin 9) : cellContrib g (r, c) i j w = contrib r c v i j w := by
  simp [cellContrib, h]

theorem cellContrib_at_none (g : Grid) (r c : Fin 9) (h : g r c = none)
    (i j w : Fin 9) : cellContrib g (r, c) i j w = 0 := by
  simp [cellContrib, h]

theorem constraintsOf_update (g : Grid) (r c : Fin 9) (x : Option (Fin 9))
    (i j w : Fin 9) :
    constraintsOf (updateG g r c x) i j w + cellContrib g (r, c) i j w =
    constraintsOf g i j w + cellContrib (updateG g r c x) (r, c) i j w := by
  unfold constraintsOf
  rw [← Finset.sum_erase_add _ _ (Finset.mem_univ (r, c)),
    ← Finset.sum_erase_add _ (fun p => cellContrib g p i j w) (Finset.mem_univ (r, c))]
  have he : ∑ p ∈ Finset.univ.erase (r, c), cellContrib (updateG g r c x) p i j w =
      ∑ p ∈ Finset.univ.erase (r, c), cellContrib g p i j w :=
    Finset.sum_congr rfl fun p hp =>
      cellContrib_update_ne g r c x p (Finset.ne_of_mem_erase hp) i j w
  rw [he]
  ring

theorem updateG_self (g : Grid) (r c : Fin 9) (x : Option (Fin 9)) :
    updateG g r c x r c = x := by
  simp [updateG]

theorem constraintsOf_update_some (g : Grid) (r c v : Fin 9)
    (h : g r c = none) (i j w : Fin 9) :
    constraintsOf (updateG g r c (some v)) i j w =
    constraintsOf g i j w + contrib r c v i j w := by
  have := constraintsOf_update g r c (some v) i j w
  rw [cellContrib_at_none g r c h,
    cellContrib_at (updateG g r c (some v)) r c v (updateG_self g r c (some v))] at this
  omega

theorem constraintsOf_update_none (g : Grid) (r c v : Fin 9)
    (h : g r c = some v) (i j w : Fin 9) :
    constraintsOf g i j w =
    constraintsOf (updateG g r c none) i j w + contrib r c v i j w := by
  have := constraintsOf_update g r c none i j w
  rw [cellContrib_at g r c v h,
    cellContrib_at_none (updateG g r c none) r c (updateG_self g r c none)] at this
  omega

theorem filledCells_update_some (g : Grid) (r c v : Fin 9) :
    filledCells (updateG g r c (some v)) = insert (r, c) (filledCells g) := by
  ext p
  by_cases hp : p = (r, c)
  · subst hp
    simp [filledCells, updateG]
  · have hne : ¬(p.1 = r ∧ p.2 = c) := fun hc => hp (Prod.ext hc.1 hc.2)
    simp [filledCells, updateG, hne, hp]

theorem countFilled_update_some (g : Grid) (r c v : Fin 9) (h : g r c = none) :
    countFilled (updateG g r c (some v)) = countFilled g + 1 := by
  unfold countFilled
  rw [filledCells_update_some]
  have hnm : (r, c) ∉ filledCells g := by
    simp [filledCells, h]
  rw [Finset.card_insert_of_not_mem hnm]

theorem filledCells_update_none (g : Grid) (r c : Fin 9) :
    filledCells (updateG g r c none) = (filledCells g).erase (r, c) := by
  ext p
  by_cases hp : p = (r, c)
  · subst hp
    simp [filledCells, updateG]
  · have hne : ¬(p.1 = r ∧ p.2 = c) := fun hc => hp (Prod.ext hc.1 hc.2)
    simp [filledCells, updateG, hne, hp]

theorem countFilled_update_none (g : Grid) (r c v : Fin 9) (h : g r c = some v) :
    countFilled g = countFilled (updateG g r c none) + 1 := by
  unfold countFilled
  rw [filledCells_update_none]
  have hm : (r, c) ∈ filledCells g := by
    simp [filledCells, h]
  rw [Finset.card_erase_add_one hm]

/-! ## Consistency and the reachability invariant -/

/-- A zero constraint slot means no committed peer holds the value. -/
theorem noPeer_of_zero {g : Grid} {r c v : Fin 9}
    (h : constraintsOf g r c v = 0) :
    ∀ i j, g i j = some v → ¬(r = i ∧ c = j) → sharedGroups i j r c = 0 := by
  intro i j hij hne
  have hterm := (Finset.sum_eq_zero_iff.mp h) (i, j) (Finset.mem_univ _)
  rw [cellContrib_at g i j v hij] at hterm
  simpa [contrib, hne] using hterm

/-- At a committed cell, the slot of the committed value is 0 in any
consistent grid. -/
theorem constraintsOf_self_zero {g : Grid} (hg : Consistent g) {r c v : Fin 9}
    (h : g r c = some v) : constraintsOf g r c v = 0 := by
  apply Finset.sum_eq_zero
  intro p _
  by_cases hp : p = (r, c)
  · subst hp
    rw [cellContrib_at g r c v h, contrib_self]
    simp
  · unfold cellContrib
    cases hpv : g p.1 p.2 with
    | none => rfl
    | some u =>
      have hne : ¬(r = p.1 ∧ c = p.2) := by
        intro hc
        exact hp (Prod.ext hc.1.symm hc.2.symm)
      have hne2 : ¬(p.1 = r ∧ p.2 = c) := fun hc => hp (Prod.ext hc.1 hc.2)
      show (if r = p.1 ∧ c = p.2 then if v = u then 0 else 1
        else if v = u then sharedGroups p.1 p.2 r c else 0) = 0
      rw [if_neg hne]
      by_cases hu : v = u
      · rw [if_pos hu]
        rw [← hu] at hpv
        exact hg p.1 p.2 r c v hpv h hne2
      · rw [if_neg hu]

theorem consistent_empty : Consistent emptyG := by
  intro r c i j v h
  simp [emptyG] at h

theorem consistent_update_none (g : Grid) (r c : Fin 9) (hg : Consistent g) :
    Consistent (updateG g r c none) := by
  intro a b i j v ha hb hne
  unfold updateG at ha hb
  by_cases h1 : a = r ∧ b = c
  · simp [h1] at ha
  · by_cases h2 : i = r ∧ j = c
    · simp [h2] at hb
    · rw [if_neg h1] at ha
      rw [if_neg h2] at hb
      exact hg a b i j v ha hb hne

theorem consistent_insert (g : Grid) (r c v : Fin 9) (hg : Consistent g)
    (hnone : g r c = none) (h0 : constraintsOf g r c v = 0) :
    Consistent (updateG g r c (some v)) := by
  intro a b i j u ha hb hne
  simp only [updateG] at ha hb
  by_cases h1 : a = r ∧ b = c
  · rw [if_pos h1] at ha
    have hvu : v = u := Option.some_inj.mp ha
    by_cases h2 : i = r ∧ j = c
    · exact absurd ⟨h1.1.trans h2.1.symm, h1.2.trans h2.2.symm⟩ hne
    · rw [if_neg h2] at hb
      rw [← hvu] at hb
      have hsz : sharedGroups i j r c = 0 :=
        noPeer_of_zero h0 i j hb (fun hc => h2 ⟨hc.1.symm, hc.2.symm⟩)
      rw [h1.1, h1.2, sharedGroups_comm]
      exact hsz
  · rw [if_neg h1] at ha
    by_cases h2 : i = r ∧ j = c
    · rw [if_pos h2] at hb
      have hvu : v = u := Option.some_inj.mp hb
      rw [← hvu] at ha
      have hsz : sharedGroups a b r c = 0 :=
        noPeer_of_zero h0 a b ha (fun hc => h1 ⟨hc.1.symm, hc.2.symm⟩)
      rw [h2.1, h2.2]
      exact hsz
    · rw [if_neg h2] at hb
      exact hg a b i j u ha hb hne

theorem abstracts_new : Abstracts new_sudoku emptyG := by
  refine ⟨fun i j w => ?_, fun i j => rfl, ?_⟩
  · have : constraintsOf emptyG i j w = 0 :=
      Finset.sum_eq_zero fun p _ => cellContrib_at_none emptyG p.1 p.2 rfl i j w
    simp [new_sudoku, this]
  · have : countFilled emptyG = 0 := by
      simp [countFilled, filledCells, emptyG]
    simp [new_sudoku, this]

theorem abstracts_insert (s : sudoku) (g : Grid) (r c v : Fin 9)
    (hA : Abstracts s g) (hnone : g r c = none)
    (h0 : constraintsOf g r c v = 0) :
    Abstracts (insert_number_at s r c v) (updateG g r c (some v)) := by
  obtain ⟨hc, hi, hn⟩ := hA
  refine ⟨fun i j w => ?_, fun i j => ?_, ?_⟩
  · show (if i = r ∧ j = c ∧ w = v then 0 else sweeps s r c v 1 i j w) = _
    rw [constraintsOf_update_some g r c v hnone]
    by_cases h : i = r ∧ j = c ∧ w = v
    · obtain ⟨e1, e2, e3⟩ := h
      subst e1; subst e2; subst e3
      rw [if_pos ⟨rfl, rfl, rfl⟩, h0]
      simp [contrib_self]
    · rw [if_neg h]
      unfold sweeps
      rw [hc i j w, sweepDelta_eq_contrib r c v i j w h]
      push_cast
      ring
  · show (if i = r ∧ j = c then (if (1 : ℤ) = -1 then false else true)
      else s.inserted i j) = (updateG g r c (some v) i j).isSome
    unfold updateG
    by_cases h : i = r ∧ j = c
    · rw [if_pos h, if_pos h]
      norm_num
    · rw [if_neg h, if_neg h]
      exact hi i j
  · show s.ninserted + 1 = _
    rw [hn, countFilled_update_some g r c v hnone]
    push_cast
    ring

theorem abstracts_remove (s : sudoku) (g : Grid) (r c v : Fin 9)
    (hA : Abstracts s g) (hg : Consistent g) (hv : g r c = some v) :
    Abstracts (remove_number_at s r c v) (updateG g r c none) := by
  obtain ⟨hc, hi, hn⟩ := hA
  have hsplit := constraintsOf_update_none g r c v hv
  refine ⟨fun i j w => ?_, fun i j => ?_, ?_⟩
  · show (if i = r ∧ j = c ∧ w = v then 0 else sweeps s r c v (-1) i j w) = _
    by_cases h : i = r ∧ j = c ∧ w = v
    · rw [if_pos h, h.1, h.2.1, h.2.2]
      have hz : constraintsOf g r c v = 0 := constraintsOf_self_zero hg hv
      have hcs : contrib r c v r c v = 0 := by simp [contrib_self]
      have h2 := hsplit r c v
      rw [hz, hcs] at h2
      have hz2 : constraintsOf (updateG g r c none) r c v = 0 := by omega
      rw [hz2]
      norm_num
    · rw [if_neg h]
      unfold sweeps
      rw [hc i j w, sweepDelta_eq_contrib r c v i j w h, hsplit i j w]
      push_cast
      ring
  · show (if i = r ∧ j = c then (if (-1 : ℤ) = -1 then false else true)
      else s.inserted i j) = (updateG g r c none i j).isSome
    unfold updateG
    by_cases h : i = r ∧ j = c
    · rw [if_pos h, if_pos h]
      norm_num
    · rw [if_neg h, if_neg h]
      exact hi i j
  · show s.ninserted + -1 = _
    rw [hn, countFilled_update_none g r c v hv]
    push_cast
    ring

/-- The reachability invariant: every state reachable by valid commits and
retracts is the exact image of its ghost grid, and the ghost grid is
consistent. -/
theorem reach_inv {s : sudoku} {g : Grid} (h : Reach s g) :
    Abstracts s g ∧ Consistent g := by
  induction h with
  | init => exact ⟨abstracts_new, consistent_empty⟩
  | insert s g r c v _ hins hcon ih =>
    obtain ⟨hA, hC⟩ := ih
    have hnone : g r c = none := by
      apply eq_none_of_isSome_false
      rw [← hA.2.1 r c]
      exact hins
    have h0 : constraintsOf g r c v = 0 := by
      have := hA.1 r c v
      rw [hcon] at this
      exact_mod_cast this.symm
    exact ⟨abstracts_insert s g r c v hA hnone h0,
      consistent_insert g r c v hC hnone h0⟩
  | remove s g r c v _ hv ih =>
    obtain ⟨hA, hC⟩ := ih
    exact ⟨abstracts_remove s g r c v hA hC hv,
      consistent_update_none g r c hC⟩

/-! ## The MRV cell selector `get_most_constrained_cell` -/

/-- The scan order of the double loop in `get_most_constrained_cell`:
row-major enumeration of all cells. -/
def cells : List (Fin 9 × Fin 9) :=
  (List.finRange 9).flatMap (fun i => (List.finRange 9).map (fun j => (i, j)))

/-- One iteration of the scan: skip committed cells, keep the cell with the
strictly smallest candidate count seen so far. -/
def mccStep (s : sudoku) (acc : ℕ × Option (Fin 9 × Fin 9)) (p : Fin 9 × Fin 9) :
    ℕ × Option (Fin 9 × Fin 9) :=
  if s.inserted p.1 p.2 then acc
  else if possCount s p.1 p.2 < acc.1 then (possCount s p.1 p.2, some p) else acc

/-- `get_most_constrained_cell`: scan all cells (with `min` starting at
`N + 1 = 10`), then recompute the winner's candidate list.  When every
cell is committed the C function leaves its out-parameters uninitialized
(undefined behaviour), modelled as `none`. -/
def get_most_constrained_cell (s : sudoku) : Option (Fin 9 × Fin 9 × List (Fin 9)) :=
  match (cells.foldl (mccStep s) (10, none)).2 with
  | none => none
  | some (r, c) => some (r, c, get_possibilities_at s r c)

/-- Row-major rank of a cell. -/
def rmIdx (p : Fin 9 × Fin 9) : ℕ := (p.1 : ℕ) * 9 + (p.2 : ℕ)

theorem possCount_le_nine (s : sudoku) (r c : Fin 9) : possCount s r c ≤ 9 := by
  unfold possCount get_possibilities_at
  have := List.length_filter_le (fun n => decide (s.constraints r c n = 0)) (List.finRange 9)
  simpa using this

theorem mem_cells (p : Fin 9 × Fin 9) : p ∈ cells := by
  unfold cells
  rw [List.mem_flatMap]
  exact ⟨p.1, List.mem_finRange p.1, List.mem_map.mpr ⟨p.2, List.mem_finRange p.2, rfl⟩⟩

theorem cells_sorted : cells.Pairwise (fun p q => rmIdx p < rmIdx q) := by
  decide

/-- Invariant of the scan: after processing the cells of `pre`, the
accumulator is `(10, none)` when every processed cell is committed, and
otherwise holds the first processed uncommitted cell achieving the minimal
candidate count among processed uncommitted cells. -/
def mccInv (s : sudoku) (pre : List (Fin 9 × Fin 9)) (acc : ℕ × Option (Fin 9 × Fin 9)) : Prop :=
  match acc.2 with
  | none => acc.1 = 10 ∧ ∀ p ∈ pre, s.inserted p.1 p.2 = true
  | some b => s.inserted b.1 b.2 = false ∧ b ∈ pre ∧ acc.1 = possCount s b.1 b.2 ∧
      ∀ p ∈ pre, s.inserted p.1 p.2 = false →
        acc.1 ≤ possCount s p.1 p.2 ∧
        (possCount s p.1 p.2 = acc.1 → rmIdx b ≤ rmIdx p)

theorem mcc_fold (s : sudoku) :
    ∀ (l pre : List (Fin 9 × Fin 9)) (acc : ℕ × Option (Fin 9 × Fin 9)),
      mccInv s pre acc →
      (∀ p ∈ pre, ∀ q ∈ l, rmIdx p < rmIdx q) →
      l.Pairwise (fun p q => rmIdx p < rmIdx q) →
      mccInv s (pre ++ l) (l.foldl (mccStep s) acc) := by
  intro l
  induction l with
  | nil =>
    intro pre acc hinv _ _
    simpa using hinv
  | cons q l ih =>
    intro pre acc hinv horder hsort
    have hstep : mccInv s (pre ++ [q]) (mccStep s acc q) := by
      unfold mccStep
      by_cases hq : s.inserted q.1 q.2
      · rw [if_pos hq]
        unfold mccInv at hinv ⊢
        cases hacc : acc.2 with
        | none =>
          rw [hacc] at hinv
          refine ⟨hinv.1, ?_⟩
          intro p hp
          rcases List.mem_append.mp hp with hp | hp
          · exact hinv.2 p hp
          · rw [List.mem_singleton.mp hp]
            exact hq
        | some b =>
          rw [hacc] at hinv
          refine ⟨hinv.1, List.mem_append_left _ hinv.2.1, hinv.2.2.1, ?_⟩
          intro p hp hpu
          rcases List.mem_append.mp hp with hp | hp
          · exact hinv.2.2.2 p hp hpu
          · rw [List.mem_singleton.mp hp] at hpu
            exact absurd hpu (by simp [hq])
      · rw [if_neg hq]
        rw [Bool.not_eq_true] at hq
        by_cases hlt : possCount s q.1 q.2 < acc.1
        · rw [if_pos hlt]
          unfold mccInv at hinv ⊢
          refine ⟨hq, List.mem_append_right _ (List.mem_singleton.mpr rfl), rfl, ?_⟩
          intro p hp hpu
          rcases List.mem_append.mp hp with hp | hp
          · cases hacc : acc.2 with
            | none =>
              rw [hacc] at hinv
              exact absurd hpu (by simp [hinv.2 p hp])
            | some b =>
              rw [hacc] at hinv
              have h1 := hinv.2.2.2 p hp hpu
              constructor
              · omega
              · intro heq
                omega
          · rw [List.mem_singleton.mp hp]
            exact ⟨le_refl _, fun _ => le_refl _⟩
        · rw [if_neg hlt]
          unfold mccInv at hinv ⊢
          cases hacc : acc.2 with
          | none =>
            rw [hacc] at hinv
            exfalso
            have := possCount_le_nine s q.1 q.2
            omega
          | some b =>
            rw [hacc] at hinv
            refine ⟨hinv.1, List.mem_append_left _ hinv.2.1, hinv.2.2.1, ?_⟩
            intro p hp hpu
            rcases List.mem_append.mp hp with hp | hp
            · exact hinv.2.2.2 p hp hpu
            · rw [List.mem_singleton.mp hp]
              constructor
              · omega
              · intro _
                have hbq : rmIdx b < rmIdx q :=
                  horder b hinv.2.1 q (List.mem_cons_self q l)
                omega
    have horder2 : ∀ p ∈ pre ++ [q], ∀ r ∈ l, rmIdx p < rmIdx r := by
      intro p hp r hr
      rcases List.mem_append.mp hp with hp | hp
      · exact horder p hp r (List.mem_cons_of_mem q hr)
      · rw [List.mem_singleton.mp hp]
        exact (List.pairwise_cons.mp hsort).1 r hr
    have := ih (pre ++ [q]) (mccStep s acc q) hstep horder2
      (List.pairwise_cons.mp hsort).2
    rw [List.append_assoc] at this
    simpa using this

/-- When an uncommitted cell exists, the scan returns an uncommitted cell
of minimal candidate count, earliest in row-major order among minimizers,
with its candidate list. -/
theorem mcc_spec (s : sudoku) (h : ∃ i j, s.inserted i j = false) :
    ∃ r c, get_most_constrained_cell s = some (r, c, get_possibilities_at s r c) ∧
      s.inserted r c = false ∧
      (∀ i j, s.inserted i j = false → possCount s r c ≤ possCount s i j) ∧
      (∀ i j, s.inserted i j = false → possCount s i j = possCount s r c →
        rmIdx (r, c) ≤ rmIdx (i, j)) := by
  obtain ⟨i0, j0, h0⟩ := h
  have hfold := mcc_fold s cells [] (10, none)
    (by unfold mccInv; exact ⟨rfl, by simp⟩) (by simp) cells_sorted
  rw [List.nil_append] at hfold
  unfold get_most_constrained_cell
  cases hacc : (cells.foldl (mccStep s) (10, none)).2 with
  | none =>
    unfold mccInv at hfold
    rw [hacc] at hfold
    have := hfold.2 (i0, j0) (mem_cells (i0, j0))
    rw [h0] at this
    exact absurd this (by simp)
  | some b =>
    unfold mccInv at hfold
    rw [hacc] at hfold
    refine ⟨b.1, b.2, ?_, hfold.1, ?_, ?_⟩
    · rfl
    · intro i j hij
      have := hfold.2.2.2 (i, j) (mem_cells (i, j)) hij
      rw [hfold.2.2.1] at this
      exact this.1
    · intro i j hij heq
      have h2 := hfold.2.2.2 (i, j) (mem_cells (i, j)) hij
      rw [hfold.2.2.1] at h2
      exact h2.2 heq

/-! ## The backtracking search `solve` -/

/-- The `s->nbacktracks++` statistics update at a dead end. -/
def incBack (s : sudoku) : sudoku :=
  { s with nbacktracks := s.nbacktracks + 1 }

mutual

/-- `solve`, fuel-indexed: `fuel` bounds the depth of nested recursive
calls; `none` marks fuel exhaustion or the undefined behaviour of reading
the selector's uninitialized out-parameters (neither occurs on valid
states, as proved below).  Returns the flag and the final state. -/
def solveFuel : ℕ → sudoku → Option (Bool × sudoku)
  | 0, _ => none
  | fuel + 1, s =>
    if s.ninserted = 81 then some (true, s)
    else
      match get_most_constrained_cell s with
      | none => none
      | some (r, c, poss) =>
        if poss.length = 0 then some (false, incBack s)
        else tryCands fuel s r c poss
termination_by fuel s => (fuel, 0)

/-- The candidate loop of `solve`: insert, recurse, on success stop
without retracting, on failure retract and try the next candidate. -/
def tryCands : ℕ → sudoku → Fin 9 → Fin 9 → List (Fin 9) → Option (Bool × sudoku)
  | _, s, _, _, [] => some (false, s)
  | fuel, s, r, c, v :: rest =>
    match solveFuel fuel (insert_number_at s r c v) with
    | none => none
    | some (true, s2) => some (true, s2)
    | some (false, s2) => tryCands fuel (remove_number_at s2 r c v) r c rest
termination_by fuel s r c l => (fuel, l.length + 1)

end

/-- `solve` with the fuel sufficient for any valid state: depth at most
81 recursive descents below the top frame (one commit per frame). -/
def solve (s : sudoku) : Option (Bool × sudoku) := solveFuel 82 s

/-- Every cell assigned. -/
def TotalG (g : Grid) : Prop := ∀ i j, (g i j).isSome

/-- `g2` preserves every assignment of `g`. -/
def ExtendsG (g g2 : Grid) : Prop := ∀ i j v, g i j = some v → g2 i j = some v

/-- A completion of `g`: a total, consistent extension — a full grid in
which every row, column and box holds each value exactly once (see
`validCompleteGrid_iff`), agreeing with `g` on its assigned cells. -/
def Completion (g g2 : Grid) : Prop := ExtendsG g g2 ∧ TotalG g2 ∧ Consistent g2

/-- Agreement of two states on everything except `nbacktracks`. -/
def coreEq (a b : sudoku) : Prop :=
  a.constraints = b.constraints ∧ a.inserted = b.inserted ∧ a.ninserted = b.ninserted

theorem coreEq_refl (a : sudoku) : coreEq a a := ⟨rfl, rfl, rfl⟩

theorem coreEq_trans {a b c : sudoku} (h1 : coreEq a b) (h2 : coreEq b c) :
    coreEq a c :=
  ⟨h1.1.trans h2.1, h1.2.1.trans h2.2.1, h1.2.2.trans h2.2.2⟩

theorem abstracts_of_coreEq {s s2 : sudoku} {g : Grid} (h : coreEq s s2)
    (hA : Abstracts s g) : Abstracts s2 g := by
  obtain ⟨h1, h2, h3⟩ := h
  exact ⟨fun i j w => by rw [← h1]; exact hA.1 i j w,
    fun i j => by rw [← h2]; exact hA.2.1 i j,
    by rw [← h3]; exact hA.2.2⟩

theorem change_state_congr (a b : sudoku) (r c v : Fin 9) (type : ℤ)
    (h : coreEq a b) :
    coreEq (change_state_at a r c v type) (change_state_at b r c v type) := by
  obtain ⟨h1, h2, h3⟩ := h
  unfold change_state_at sweeps coreEq
  refine ⟨?_, ?_, ?_⟩
  · funext i j w
    simp only [h1]
  · funext i j
    simp only [h2]
  · simp only [h3]

theorem countFilled_le (g : Grid) : countFilled g ≤ 81 := by
  have h1 := Finset.card_filter_le (Finset.univ : Finset (Fin 9 × Fin 9))
    (fun p => (g p.1 p.2).isSome)
  have h2 : (Finset.univ : Finset (Fin 9 × Fin 9)).card = 81 := by
    simp
  unfold countFilled filledCells
  omega

theorem count_of_total (g : Grid) (h : TotalG g) : countFilled g = 81 := by
  unfold countFilled filledCells
  have he : Finset.univ.filter (fun p : Fin 9 × Fin 9 => (g p.1 p.2).isSome) =
      Finset.univ := by
    apply Finset.filter_true_of_mem
    intro p _
    exact h p.1 p.2
  rw [he]
  simp

theorem total_of_count (g : Grid) (h : countFilled g = 81) : TotalG g := by
  have hsub : filledCells g ⊆ Finset.univ := Finset.subset_univ _
  have hcard : (Finset.univ : Finset (Fin 9 × Fin 9)).card ≤ (filledCells g).card := by
    have h2 : (Finset.univ : Finset (Fin 9 × Fin 9)).card = 81 := by simp
    unfold countFilled at h
    omega
  have he := Finset.eq_of_subset_of_card_le hsub hcard
  intro i j
  have hm : (i, j) ∈ filledCells g := by
    rw [he]
    exact Finset.mem_univ _
  simpa [filledCells] using hm

theorem exists_blank_of_count_lt (g : Grid) (h : countFilled g < 81) :
    ∃ i j, g i j = none := by
  by_contra hc
  push_neg at hc
  have htot : TotalG g := by
    intro i j
    cases hgij : g i j with
    | none => exact absurd hgij (hc i j)
    | some v => rfl
  rw [count_of_total g htot] at h
  omega

theorem mem_poss_iff (s : sudoku) (r c v : Fin 9) :
    v ∈ get_possibilities_at s r c ↔ s.constraints r c v = 0 := by
  unfold get_possibilities_at
  simp [List.mem_filter, List.mem_finRange]

theorem extendsG_refl (g : Grid) : ExtendsG g g := fun _ _ _ h => h

theorem extendsG_update (g : Grid) (r c v : Fin 9) (h : g r c = none) :
    ExtendsG g (updateG g r c (some v)) := by
  intro i j u hij
  unfold updateG
  by_cases hc : i = r ∧ j = c
  · rw [hc.1, hc.2] at hij
    rw [hij] at h
    exact absurd h (by simp)
  · rw [if_neg hc]
    exact hij

theorem extendsG_of_update (g g2 : Grid) (r c v : Fin 9)
    (hext : ExtendsG g g2) (hv : g2 r c = some v) :
    ExtendsG (updateG g r c (some v)) g2 := by
  intro i j u hij
  unfold updateG at hij
  by_cases hc : i = r ∧ j = c
  · rw [if_pos hc] at hij
    rw [hc.1, hc.2, ← Option.some_inj.mp hij]
    exact hv
  · rw [if_neg hc] at hij
    exact hext i j u hij

/-- Any completion assigns, at a blank cell of `g`, a value whose
constraint slot in `g` is zero. -/
theorem completion_slot_zero {g g2 : Grid} (hg2 : Consistent g2)
    (hext : ExtendsG g g2) {r c v : Fin 9}
    (hnone : g r c = none) (hv : g2 r c = some v) :
    constraintsOf g r c v = 0 := by
  apply Finset.sum_eq_zero
  intro p _
  unfold cellContrib
  cases hp : g p.1 p.2 with
  | none => rfl
  | some u =>
    by_cases hpc : p = (r, c)
    · rw [hpc] at hp
      rw [hnone] at hp
      simp at hp
    · show (if r = p.1 ∧ c = p.2 then if v = u then 0 else 1
        else if v = u then sharedGroups p.1 p.2 r c else 0) = 0
      have hne : ¬(r = p.1 ∧ c = p.2) := fun hcc => hpc (Prod.ext hcc.1.symm hcc.2.symm)
      rw [if_neg hne]
      by_cases hu : v = u
      · rw [if_pos hu]
        have hpv : g p.1 p.2 = some v := by
          rw [hp]
          exact congrArg some hu.symm
        exact hg2 p.1 p.2 r c v (hext p.1 p.2 v hpv) hv
          (fun hcc => hpc (Prod.ext hcc.1 hcc.2))
      · rw [if_neg hu]

/-! ## Correctness of the search -/

/-- Specification of the candidate loop, assuming the specification of
`solveFuel` at the same fuel (the induction hypothesis of
`solveFuel_spec`). -/
theorem tryCands_spec (fuel : ℕ)
    (ih : ∀ (s : sudoku) (g : Grid), Abstracts s g → Consistent g →
      82 - countFilled g ≤ fuel →
      ∃ b s2, solveFuel fuel s = some (b, s2) ∧
        (b = true → ∃ g2, Completion g g2 ∧ Abstracts s2 g2) ∧
        (b = false → coreEq s s2) ∧
        (b = true ↔ ∃ g2, Completion g g2)) :
    ∀ (L : List (Fin 9)) (s : sudoku) (g : Grid) (r c : Fin 9),
      Abstracts s g → Consistent g → g r c = none →
      countFilled g < 81 → 81 - countFilled g ≤ fuel →
      (∀ v ∈ L, s.constraints r c v = 0) →
      ∃ b s2, tryCands fuel s r c L = some (b, s2) ∧
        (b = true → ∃ g2, Completion g g2 ∧ Abstracts s2 g2) ∧
        (b = false → coreEq s s2) ∧
        (b = true ↔ ∃ g2, Completion g g2 ∧ ∃ v ∈ L, g2 r c = some v) := by
  intro L
  induction L with
  | nil =>
    intro s g r c hA hC hnone hlt hfuel hall
    refine ⟨false, s, ?_, ?_, ?_, ?_⟩
    · simp [tryCands]
    · intro h
      exact Bool.noConfusion h
    · intro _
      exact coreEq_refl s
    · constructor
      · intro h
        exact Bool.noConfusion h
      · rintro ⟨g2, _, u, hu, _⟩
        exact absurd hu (List.not_mem_nil u)
  | cons v rest ihL =>
    intro s g r c hA hC hnone hlt hfuel hall
    have hins : s.inserted r c = false := by
      rw [hA.2.1 r c, hnone]
      rfl
    have hcon : s.constraints r c v = 0 := hall v (List.mem_cons_self v rest)
    have h0 : constraintsOf g r c v = 0 := by
      have hx := hA.1 r c v
      rw [hcon] at hx
      exact_mod_cast hx.symm
    have hA1 : Abstracts (insert_number_at s r c v) (updateG g r c (some v)) :=
      abstracts_insert s g r c v hA hnone h0
    have hC1 : Consistent (updateG g r c (some v)) :=
      consistent_insert g r c v hC hnone h0
    have hcnt1 : countFilled (updateG g r c (some v)) = countFilled g + 1 :=
      countFilled_update_some g r c v hnone
    obtain ⟨b1, s2, heq1, hsucc1, hfail1, hiff1⟩ :=
      ih (insert_number_at s r c v) (updateG g r c (some v)) hA1 hC1 (by omega)
    cases b1 with
    | true =>
      refine ⟨true, s2, ?_, ?_, ?_, ?_⟩
      · simp only [tryCands]
        rw [heq1]
      · intro _
        obtain ⟨g2, hcomp, hAb⟩ := hsucc1 rfl
        exact ⟨g2, ⟨fun i j u h => hcomp.1 i j u (extendsG_update g r c v hnone i j u h),
          hcomp.2.1, hcomp.2.2⟩, hAb⟩
      · intro h
        exact Bool.noConfusion h
      · constructor
        · intro _
          obtain ⟨g2, hcomp⟩ := hiff1.mp rfl
          refine ⟨g2, ⟨fun i j u h => hcomp.1 i j u (extendsG_update g r c v hnone i j u h),
            hcomp.2.1, hcomp.2.2⟩, v, List.mem_cons_self v rest, ?_⟩
          exact hcomp.1 r c v (updateG_self g r c (some v))
        · intro _
          rfl
    | false =>
      have hcore12 : coreEq (insert_number_at s r c v) s2 := hfail1 rfl
      have hid : remove_number_at (insert_number_at s r c v) r c v = s :=
        insert_remove_eq s r c v hins hcon
      have hcore3 : coreEq s (remove_number_at s2 r c v) := by
        have hcg := change_state_congr (insert_number_at s r c v) s2 r c v (-1) hcore12
        rw [show change_state_at (insert_number_at s r c v) r c v (-1) =
          remove_number_at (insert_number_at s r c v) r c v from rfl, hid] at hcg
        exact hcg
      have hA3 : Abstracts (remove_number_at s2 r c v) g :=
        abstracts_of_coreEq hcore3 hA
      have hall3 : ∀ u ∈ rest, (remove_number_at s2 r c v).constraints r c u = 0 := by
        intro u hu
        rw [← hcore3.1]
        exact hall u (List.mem_cons_of_mem v hu)
      obtain ⟨b, s4, heq2, hsucc2, hfail2, hiff2⟩ :=
        ihL (remove_number_at s2 r c v) g r c hA3 hC hnone hlt hfuel hall3
      refine ⟨b, s4, ?_, hsucc2, ?_, ?_⟩
      · simp only [tryCands]
        rw [heq1]
        exact heq2
      · intro hb
        exact coreEq_trans hcore3 (hfail2 hb)
      · rw [hiff2]
        constructor
        · rintro ⟨g2, hcomp, u, hu, hval⟩
          exact ⟨g2, hcomp, u, List.mem_cons_of_mem v hu, hval⟩
        · rintro ⟨g2, hcomp, u, hu, hval⟩
          rcases List.mem_cons.mp hu with hu | hu
          · exfalso
            rw [hu] at hval
            have hcomp1 : Completion (updateG g r c (some v)) g2 :=
              ⟨extendsG_of_update g g2 r c v hcomp.1 hval, hcomp.2.1, hcomp.2.2⟩
            exact Bool.noConfusion (hiff1.mpr ⟨g2, hcomp1⟩)
          · exact ⟨g2, hcomp, u, hu, hval⟩

/-- Specification of `solveFuel`: on any state abstracting a consistent
ghost grid, with fuel at least `82 - countFilled g`, the search terminates
with a definite answer; on success the final state is a consistent total
extension of the input, on failure the state is restored up to
`nbacktracks`; and it succeeds exactly when a completion exists. -/
theorem solveFuel_spec : ∀ (fuel : ℕ) (s : sudoku) (g : Grid),
    Abstracts s g → Consistent g → 82 - countFilled g ≤ fuel →
    ∃ b s2, solveFuel fuel s = some (b, s2) ∧
      (b = true → ∃ g2, Completion g g2 ∧ Abstracts s2 g2) ∧
      (b = false → coreEq s s2) ∧
      (b = true ↔ ∃ g2, Completion g g2) := by
  intro fuel
  induction fuel with
  | zero =>
    intro s g hA hC hfuel
    exfalso
    have := countFilled_le g
    omega
  | succ fuel ih =>
    intro s g hA hC hfuel
    by_cases h81 : s.ninserted = 81
    · have hcount : countFilled g = 81 := by
        have hni := hA.2.2
        rw [h81] at hni
        exact_mod_cast hni.symm
      refine ⟨true, s, ?_, ?_, ?_, ?_⟩
      · simp only [solveFuel]
        rw [if_pos h81]
      · intro _
        exact ⟨g, ⟨extendsG_refl g, total_of_count g hcount, hC⟩, hA⟩
      · intro h
        exact Bool.noConfusion h
      · exact ⟨fun _ => ⟨g, extendsG_refl g, total_of_count g hcount, hC⟩, fun _ => rfl⟩
    · have hcount : countFilled g < 81 := by
        have hle := countFilled_le g
        have hni := hA.2.2
        have hne : countFilled g ≠ 81 := by
          intro he
          apply h81
          rw [hni, he]
          norm_cast
        omega
      obtain ⟨i0, j0, hblank⟩ := exists_blank_of_count_lt g hcount
      have hunc : s.inserted i0 j0 = false := by
        rw [hA.2.1 i0 j0, hblank]
        rfl
      obtain ⟨r, c, hmcc, hrc_unc, _, _⟩ := mcc_spec s ⟨i0, j0, hunc⟩
      have hrc_none : g r c = none := by
        apply eq_none_of_isSome_false
        rw [← hA.2.1 r c]
        exact hrc_unc
      have hstep : solveFuel (fuel + 1) s =
          (if (get_possibilities_at s r c).length = 0 then some (false, incBack s)
           else tryCands fuel s r c (get_possibilities_at s r c)) := by
        simp only [solveFuel]
        rw [if_neg h81, hmcc]
      by_cases hposs : (get_possibilities_at s r c).length = 0
      · refine ⟨false, incBack s, ?_, ?_, ?_, ?_⟩
        · rw [hstep, if_pos hposs]
        · intro h
          exact Bool.noConfusion h
        · intro _
          exact ⟨rfl, rfl, rfl⟩
        · constructor
          · intro h
            exact Bool.noConfusion h
          · rintro ⟨g2, hext, htot, hcons⟩
            exfalso
            obtain ⟨u, hu⟩ := Option.isSome_iff_exists.mp (htot r c)
            have h0 : constraintsOf g r c u = 0 :=
              completion_slot_zero hcons hext hrc_none hu
            have hsz : s.constraints r c u = 0 := by
              rw [hA.1 r c u, h0]
              rfl
            have hmem : u ∈ get_possibilities_at s r c := (mem_poss_iff s r c u).mpr hsz
            exact List.ne_nil_of_mem hmem (List.length_eq_zero.mp hposs)
      · have hL : ∀ u ∈ get_possibilities_at s r c, s.constraints r c u = 0 :=
          fun u hu => (mem_poss_iff s r c u).mp hu
        obtain ⟨b, s2, heq, hsucc, hfail, hiff⟩ :=
          tryCands_spec fuel ih (get_possibilities_at s r c) s g r c hA hC hrc_none
            hcount (by omega) hL
        refine ⟨b, s2, ?_, hsucc, hfail, ?_⟩
        · rw [hstep, if_neg hposs]
          exact heq
        · rw [hiff]
          constructor
          · rintro ⟨g2, hcomp, _, _, _⟩
            exact ⟨g2, hcomp⟩
          · rintro ⟨g2, hcomp⟩
            obtain ⟨u, hu⟩ := Option.isSome_iff_exists.mp (hcomp.2.1 r c)
            have h0 : constraintsOf g r c u = 0 :=
              completion_slot_zero hcomp.2.2 hcomp.1 hrc_none hu
            have hsz : s.constraints r c u = 0 := by
              rw [hA.1 r c u, h0]
              rfl
            exact ⟨g2, hcomp, u, (mem_poss_iff s r c u).mpr hsz, hu⟩

/-! ## Full valid grids: each value exactly once per row, column, box -/

/-- The claims' formulation of a solved grid: every row, every column and
every 3x3 box contains each of the 9 values exactly once. -/
def ValidCompleteGrid (g : Grid) : Prop :=
  (∀ (r v : Fin 9), ∃! c : Fin 9, g r c = some v) ∧
  (∀ (c v : Fin 9), ∃! r : Fin 9, g r c = some v) ∧
  (∀ (br bc : Fin 3) (v : Fin 9), ∃! p : Fin 9 × Fin 9,
    (p.1 : ℕ) / 3 = (br : ℕ) ∧ (p.2 : ℕ) / 3 = (bc : ℕ) ∧ g p.1 p.2 = some v)

theorem sharedGroups_ne_zero_row {r c i j : Fin 9} (h : i = r) :
    sharedGroups r c i j ≠ 0 := by
  unfold sharedGroups
  rw [if_pos h]
  omega

theorem sharedGroups_ne_zero_col {r c i j : Fin 9} (h : j = c) :
    sharedGroups r c i j ≠ 0 := by
  unfold sharedGroups
  rw [if_pos h]
  omega

theorem sharedGroups_ne_zero_box {r c i j : Fin 9}
    (h : (i : ℕ) / 3 = (r : ℕ) / 3 ∧ (j : ℕ) / 3 = (c : ℕ) / 3) :
    sharedGroups r c i j ≠ 0 := by
  unfold sharedGroups
  rw [if_pos h]
  omega

theorem sharedGroups_cases {r c i j : Fin 9} (h : sharedGroups r c i j ≠ 0) :
    i = r ∨ j = c ∨ ((i : ℕ) / 3 = (r : ℕ) / 3 ∧ (j : ℕ) / 3 = (c : ℕ) / 3) := by
  by_cases h1 : i = r
  · exact Or.inl h1
  · by_cases h2 : j = c
    · exact Or.inr (Or.inl h2)
    · by_cases h3 : (i : ℕ) / 3 = (r : ℕ) / 3 ∧ (j : ℕ) / 3 = (c : ℕ) / 3
      · exact Or.inr (Or.inr h3)
      · exfalso
        unfold sharedGroups at h
        rw [if_neg h1, if_neg h2, if_neg h3] at h
        exact h rfl

theorem total_consistent_of_valid {g : Grid} (h : ValidCompleteGrid g) :
    TotalG g ∧ Consistent g := by
  obtain ⟨hrow, hcol, hbox⟩ := h
  constructor
  · intro i j
    have hf : ∀ v : Fin 9, ∃ cv : Fin 9, g i cv = some v := fun v => ⟨(hrow i v).choose,
      (hrow i v).choose_spec.1⟩
    choose cv hcv using hf
    have hinj : Function.Injective cv := by
      intro a b hab
      have h1 := hcv a
      rw [hab] at h1
      have h2 := hcv b
      rw [h2] at h1
      exact (Option.some_inj.mp h1).symm
    have hsurj : Function.Surjective cv := Finite.injective_iff_surjective.mp hinj
    obtain ⟨v, hv⟩ := hsurj j
    rw [← hv, hcv v]
    rfl
  · intro r c i j v hrc hij hne
    by_contra hsz
    rcases sharedGroups_cases hsz with hcase | hcase | hcase
    · rw [hcase] at hij
      have he := ((hrow r v).unique hrc hij).symm
      exact hne ⟨hcase.symm, by rw [he]⟩
    · rw [hcase] at hij
      have he := ((hcol c v).unique hrc hij).symm
      exact hne ⟨by rw [he], hcase.symm⟩
    · have hb3 : (r : ℕ) / 3 < 3 := by omega
      have hc3 : (c : ℕ) / 3 < 3 := by omega
      have hu := @ExistsUnique.unique (Fin 9 × Fin 9) _
        (hbox ⟨(r : ℕ) / 3, hb3⟩ ⟨(c : ℕ) / 3, hc3⟩ v) (r, c) (i, j)
        ⟨rfl, rfl, hrc⟩ ⟨hcase.1, hcase.2, hij⟩
      exact hne ⟨congrArg Prod.fst hu, congrArg Prod.snd hu⟩

theorem valid_of_total_consistent {g : Grid} (htot : TotalG g)
    (hcons : Consistent g) : ValidCompleteGrid g := by
  have hex : ∀ i j : Fin 9, ∃ u, g i j = some u :=
    fun i j => Option.isSome_iff_exists.mp (htot i j)
  choose f hf using hex
  have hrowAll : ∀ r v : Fin 9, ∃! c : Fin 9, g r c = some v := by
    intro r v
    have hinj : Function.Injective (f r) := by
      intro a b hab
      by_contra hne
      have h1 := hf r a
      rw [hab] at h1
      exact sharedGroups_ne_zero_row rfl
        (hcons r a r b (f r b) h1 (hf r b) (fun hcc => hne hcc.2))
    obtain ⟨cw, hcw⟩ := (Finite.injective_iff_surjective.mp hinj) v
    refine ⟨cw, ?_, ?_⟩
    · show g r cw = some v
      rw [hf r cw, hcw]
    · intro y hy
      apply hinj
      rw [hcw]
      have h1 := hf r y
      rw [hy] at h1
      exact (Option.some_inj.mp h1).symm
  have hcolAll : ∀ c v : Fin 9, ∃! r : Fin 9, g r c = some v := by
    intro c v
    have hinj : Function.Injective (fun r => f r c) := by
      intro a b hab
      by_contra hne
      simp only at hab
      have h1 := hf a c
      rw [hab] at h1
      exact sharedGroups_ne_zero_col rfl
        (hcons a c b c (f b c) h1 (hf b c) (fun hcc => hne hcc.1))
    obtain ⟨rw0, hrw0⟩ := (Finite.injective_iff_surjective.mp hinj) v
    simp only at hrw0
    refine ⟨rw0, ?_, ?_⟩
    · show g rw0 c = some v
      rw [hf rw0 c, hrw0]
    · intro y hy
      apply hinj
      simp only
      rw [hrw0]
      have h1 := hf y c
      rw [hy] at h1
      exact (Option.some_inj.mp h1).symm
  refine ⟨hrowAll, hcolAll, ?_⟩
  intro br bc v
  have hdiv3 : ∀ y : Fin 9, (y : ℕ) / 3 < 3 := by
    intro y
    have := y.isLt
    omega
  have hcrv_val : ∀ r : Fin 9, g r ((hrowAll r v).choose) = some v :=
    fun r => (hrowAll r v).choose_spec.1
  have hinj2 : ∀ a b : Fin 9, (a : ℕ) / 3 = (b : ℕ) / 3 →
      (((hrowAll a v).choose : ℕ)) / 3 = (((hrowAll b v).choose : ℕ)) / 3 → a = b := by
    intro a b e1 e2
    by_contra hne
    exact sharedGroups_ne_zero_box ⟨e1.symm, e2.symm⟩
      (hcons a ((hrowAll a v).choose) b ((hrowAll b v).choose) v
        (hcrv_val a) (hcrv_val b) (fun hcc => hne hcc.1))
  have hUinj : Function.Injective (fun r : Fin 9 =>
      ((⟨(r : ℕ) / 3, hdiv3 r⟩ : Fin 3),
       (⟨(((hrowAll r v).choose : ℕ)) / 3, hdiv3 ((hrowAll r v).choose)⟩ : Fin 3))) := by
    intro a b hab
    exact hinj2 a b (congrArg (fun q : Fin 3 × Fin 3 => (q.1 : ℕ)) hab)
      (congrArg (fun q : Fin 3 × Fin 3 => (q.2 : ℕ)) hab)
  have hUbij := (Fintype.bijective_iff_injective_and_card (fun r : Fin 9 =>
      ((⟨(r : ℕ) / 3, hdiv3 r⟩ : Fin 3),
       (⟨(((hrowAll r v).choose : ℕ)) / 3, hdiv3 ((hrowAll r v).choose)⟩ : Fin 3)))).mpr
    ⟨hUinj, by simp⟩
  obtain ⟨r0, hr0⟩ := hUbij.2 (br, bc)
  have hr0a : ((r0 : ℕ)) / 3 = (br : ℕ) := congrArg (fun q : Fin 3 × Fin 3 => (q.1 : ℕ)) hr0
  have hr0b : (((hrowAll r0 v).choose : ℕ)) / 3 = (bc : ℕ) :=
    congrArg (fun q : Fin 3 × Fin 3 => (q.2 : ℕ)) hr0
  refine ⟨(r0, (hrowAll r0 v).choose), ⟨hr0a, hr0b, hcrv_val r0⟩, ?_⟩
  rintro ⟨y1, y2⟩ ⟨hy1, hy2, hyv⟩
  have hy2eq : y2 = (hrowAll y1 v).choose := (hrowAll y1 v).choose_spec.2 y2 hyv
  have hUy1 : ((⟨(y1 : ℕ) / 3, hdiv3 y1⟩ : Fin 3),
      (⟨(((hrowAll y1 v).choose : ℕ)) / 3, hdiv3 ((hrowAll y1 v).choose)⟩ : Fin 3)) =
      ((br, bc) : Fin 3 × Fin 3) := by
    refine Prod.ext (Fin.ext ?_) (Fin.ext ?_)
    · exact hy1
    · show (((hrowAll y1 v).choose : ℕ)) / 3 = (bc : ℕ)
      rw [← hy2eq]
      exact hy2
  have hy1r0 : y1 = r0 := hUinj (hUy1.trans hr0.symm)
  refine Prod.ext hy1r0 ?_
  show y2 = (hrowAll r0 v).choose
  rw [hy2eq, hy1r0]

/-! ## Further helpers for the claim theorems -/

theorem length_filter_impl (l : List (Fin 9)) (p q : Fin 9 → Bool)
    (h : ∀ a, p a = true → q a = true) :
    (l.filter p).length ≤ (l.filter q).length := by
  induction l with
  | nil => simp
  | cons x xs ih =>
    by_cases hp : p x = true
    · rw [List.filter_cons_of_pos hp, List.filter_cons_of_pos (h x hp)]
      simpa using ih
    · rw [List.filter_cons_of_neg (by simpa using hp)]
      by_cases hq : q x = true
      · rw [List.filter_cons_of_pos hq]
        simp only [List.length_cons]
        omega
      · rw [List.filter_cons_of_neg (by simpa using hq)]
        exact ih

theorem finRange_filter_eq_single (v : Fin 9) :
    (List.finRange 9).filter (fun n => decide (n = v)) = [v] := by
  fin_cases v <;> decide

/-- Sequential loading of clues, as `read_input` does: a fold of
`insert_number_at` over a list of (row, col, value) triples. -/
def insertList (s : sudoku) (l : List (Fin 9 × Fin 9 × Fin 9)) : sudoku :=
  l.foldl (fun s t => insert_number_at s t.1 t.2.1 t.2.2) s

/-- Ghost image of `insertList`. -/
def insertListG (g : Grid) (l : List (Fin 9 × Fin 9 × Fin 9)) : Grid :=
  l.foldl (fun g t => updateG g t.1 t.2.1 (some t.2.2)) g

/-- Executable check that each insert of the list meets the commit
preconditions in sequence. -/
def insertListOk : sudoku → List (Fin 9 × Fin 9 × Fin 9) → Bool
  | _, [] => true
  | s, t :: rest =>
    !(s.inserted t.1 t.2.1) && decide (s.constraints t.1 t.2.1 t.2.2 = 0) &&
      insertListOk (insert_number_at s t.1 t.2.1 t.2.2) rest

theorem reach_insertList : ∀ (l : List (Fin 9 × Fin 9 × Fin 9)) (s : sudoku) (g : Grid),
    Reach s g → insertListOk s l = true →
    Reach (insertList s l) (insertListG g l) := by
  intro l
  induction l with
  | nil =>
    intro s g h _
    simpa [insertList, insertListG] using h
  | cons t rest ih =>
    intro s g h hok
    simp only [insertListOk, Bool.and_eq_true] at hok
    obtain ⟨⟨h1, h2⟩, h3⟩ := hok
    simp only [insertList, insertListG, List.foldl_cons]
    exact ih (insert_number_at s t.1 t.2.1 t.2.2) (updateG g t.1 t.2.1 (some t.2.2))
      (Reach.insert s g t.1 t.2.1 t.2.2 h (by simpa using h1) (of_decide_eq_true h2)) h3

/-! ## Concrete states for witnesses -/

/-- One valid commit: value 4 at cell (0,1). -/
def sOne : sudoku := insert_number_at new_sudoku 0 1 4

/-- Ghost grid of `sOne`. -/
def gOne : Grid := updateG emptyG 0 1 (some 4)

/-- A complete valid grid (the shifted pattern `(3i + i/3 + j) mod 9`),
loaded in row-major order. -/
def fullList : List (Fin 9 × Fin 9 × Fin 9) :=
  [(0, 0, 0), (0, 1, 1), (0, 2, 2), (0, 3, 3), (0, 4, 4), (0, 5, 5),
   (0, 6, 6), (0, 7, 7), (0, 8, 8), (1, 0, 3), (1, 1, 4), (1, 2, 5),
   (1, 3, 6), (1, 4, 7), (1, 5, 8), (1, 6, 0), (1, 7, 1), (1, 8, 2),
   (2, 0, 6), (2, 1, 7), (2, 2, 8), (2, 3, 0), (2, 4, 1), (2, 5, 2),
   (2, 6, 3), (2, 7, 4), (2, 8, 5), (3, 0, 1), (3, 1, 2), (3, 2, 3),
   (3, 3, 4), (3, 4, 5), (3, 5, 6), (3, 6, 7), (3, 7, 8), (3, 8, 0),
   (4, 0, 4), (4, 1, 5), (4, 2, 6), (4, 3, 7), (4, 4, 8), (4, 5, 0),
   (4, 6, 1), (4, 7, 2), (4, 8, 3), (5, 0, 7), (5, 1, 8), (5, 2, 0),
   (5, 3, 1), (5, 4, 2), (5, 5, 3), (5, 6, 4), (5, 7, 5), (5, 8, 6),
   (6, 0, 2), (6, 1, 3), (6, 2, 4), (6, 3, 5), (6, 4, 6), (6, 5, 7),
   (6, 6, 8), (6, 7, 0), (6, 8, 1), (7, 0, 5), (7, 1, 6), (7, 2, 7),
   (7, 3, 8), (7, 4, 0), (7, 5, 1), (7, 6, 2), (7, 7, 3), (7, 8, 4),
   (8, 0, 8), (8, 1, 0), (8, 2, 1), (8, 3, 2), (8, 4, 3), (8, 5, 4),
   (8, 6, 5), (8, 7, 6), (8, 8, 7)]

/-- The fully committed state for the full grid. -/
def sFull : sudoku := insertList new_sudoku fullList

/-- Ghost grid of `sFull`. -/
def gFull : Grid := insertListG emptyG fullList

/-- Nine individually valid commits that leave cell (0,0) with zero
candidates: values 1..8 along row 0, and value 0 just below in column 0. -/
def blockList : List (Fin 9 × Fin 9 × Fin 9) :=
  [(0, 1, 1), (0, 2, 2), (0, 3, 3), (0, 4, 4), (0, 5, 5), (0, 6, 6),
   (0, 7, 7), (0, 8, 8), (1, 0, 0)]

/-- The dead-end state. -/
def sBlock : sudoku := insertList new_sudoku blockList

/-- Ghost grid of `sBlock`. -/
def gBlock : Grid := insertListG emptyG blockList

/-- The quantity named by the spec for C5: the number of distinct
committed peer cells (sharing the row, the column, or the box of `(r,c)`)
currently holding value `v`. -/
def peerCount (g : Grid) (r c v : Fin 9) : ℕ :=
  (Finset.univ.filter (fun p : Fin 9 × Fin 9 =>
    p ≠ (r, c) ∧
    (p.1 = r ∨ p.2 = c ∨
      ((p.1 : ℕ) / 3 = (r : ℕ) / 3 ∧ (p.2 : ℕ) / 3 = (c : ℕ) / 3)) ∧
    g p.1 p.2 = some v)).card

/-! ## The claim theorems -/

/-- Claim C1: for every state reachable from the empty state by valid
commits, `solve` returns 1 exactly when the partial assignment admits a
completion in which every row, column and 3x3 box holds each value exactly
once. -/
theorem claim1_solve_iff_completion (s : sudoku) (g : Grid) (hre : ReachC s g) :
    ∃ b s2, solve s = some (b, s2) ∧
      (b = true ↔ ∃ g2, ExtendsG g g2 ∧ ValidCompleteGrid g2) := by
  obtain ⟨hA, hC⟩ := reach_inv (reach_of_reachC hre)
  obtain ⟨b, s2, heq, _, _, hiff⟩ :=
    solveFuel_spec 82 s g hA hC (by have := countFilled_le g; omega)
  refine ⟨b, s2, heq, ?_⟩
  rw [hiff]
  constructor
  · rintro ⟨g2, hext, htot, hcons⟩
    exact ⟨g2, hext, valid_of_total_consistent htot hcons⟩
  · rintro ⟨g2, hext, hvalid⟩
    obtain ⟨ht, hc⟩ := total_consistent_of_valid hvalid
    exact ⟨g2, hext, ht, hc⟩

/-- Witness for C1: the empty state, reachable by zero commits. -/
theorem claim1_solve_iff_completion_witness :
    ∃ b s2, solve new_sudoku = some (b, s2) ∧
      (b = true ↔ ∃ g2, ExtendsG emptyG g2 ∧ ValidCompleteGrid g2) :=
  claim1_solve_iff_completion new_sudoku emptyG ReachC.init

/-- Claim C2: whenever `solve` returns 1 on a valid reachable state, the
resulting state has all 81 cells committed, and the committed values form
a grid in which every row, column and box holds each value exactly once. -/
theorem claim2_success_valid (s s2 : sudoku) (g : Grid) (hre : Reach s g)
    (hsol : solve s = some (true, s2)) :
    (∀ i j, s2.inserted i j = true) ∧ ∃ g2, Abstracts s2 g2 ∧ ValidCompleteGrid g2 := by
  obtain ⟨hA, hC⟩ := reach_inv hre
  obtain ⟨b, s3, heq, hsucc, _, _⟩ :=
    solveFuel_spec 82 s g hA hC (by have := countFilled_le g; omega)
  rw [show solve s = solveFuel 82 s from rfl, heq] at hsol
  have hp := Option.some_inj.mp hsol
  have hb : b = true := congrArg Prod.fst hp
  have hs3 : s3 = s2 := congrArg Prod.snd hp
  obtain ⟨g2, hcomp, hAb⟩ := hsucc hb
  rw [hs3] at hAb
  refine ⟨?_, g2, hAb, valid_of_total_consistent hcomp.2.1 hcomp.2.2⟩
  intro i j
  rw [hAb.2.1 i j]
  exact hcomp.2.1 i j

set_option maxRecDepth 100000 in
/-- Witness for C2: the fully loaded valid grid, on which `solve` returns
1 immediately. -/
theorem claim2_success_valid_witness :
    (∀ i j, sFull.inserted i j = true) ∧
    ∃ g2, Abstracts sFull g2 ∧ ValidCompleteGrid g2 := by
  have hre : Reach sFull gFull :=
    reach_insertList fullList new_sudoku emptyG Reach.init (by decide)
  have hsol : solve sFull = some (true, sFull) := by
    show solveFuel (81 + 1) sFull = some (true, sFull)
    simp only [solveFuel]
    rw [if_pos (show sFull.ninserted = 81 by decide)]
  exact claim2_success_valid sFull sFull gFull hre hsol

/-- Claim C5 counterexample: after the single valid commit of 4 at (0,1)
from the empty state, the slot `constraints[0][0][4]` holds 2 (the peer
(0,1) shares both the row and the box of (0,0), so the sweeps hit the slot
twice), while the number of distinct committed peers of (0,0) holding 4 is
1; the claimed equality fails. -/
theorem claim5_counterexample :
    Reach sOne gOne ∧ peerCount gOne 0 0 4 = 1 ∧ sOne.constraints 0 0 4 = 2 ∧
    sOne.constraints 0 0 4 ≠ (peerCount gOne 0 0 4 : ℤ) := by
  refine ⟨Reach.insert new_sudoku emptyG 0 1 4 Reach.init rfl rfl, ?_, ?_, ?_⟩
  · decide
  · decide
  · decide

/-- Claim C5 as amended: in every reachable state each constraint slot is
non-negative and equals the multiplicity-weighted peer count
`constraintsOf`: the sum over committed peers holding the value of the
number of unit groups shared with the cell, plus one for the cell itself
when it is committed with a different value (zero for its own value). -/
theorem claim5_constraints_formula (s : sudoku) (g : Grid) (hre : Reach s g)
    (i j w : Fin 9) :
    0 ≤ s.constraints i j w ∧ s.constraints i j w = (constraintsOf g i j w : ℤ) := by
  have hA := (reach_inv hre).1
  refine ⟨?_, hA.1 i j w⟩
  rw [hA.1 i j w]
  exact Int.natCast_nonneg _

/-- Witness for the amended C5, at the one-commit state. -/
theorem claim5_constraints_formula_witness :
    0 ≤ sOne.constraints 0 0 4 ∧
    sOne.constraints 0 0 4 = (constraintsOf gOne 0 0 4 : ℤ) :=
  claim5_constraints_formula sOne gOne
    (Reach.insert new_sudoku emptyG 0 1 4 Reach.init rfl rfl) 0 0 4

/-- Claim C6: a valid commit never increases the candidate count of any
other cell. -/
theorem claim6_commit_shrinks (s : sudoku) (g : Grid) (r c v r2 c2 : Fin 9)
    (hre : Reach s g) (hins : s.inserted r c = false)
    (hcon : s.constraints r c v = 0) (hne : ¬(r2 = r ∧ c2 = c)) :
    possCount (insert_number_at s r c v) r2 c2 ≤ possCount s r2 c2 := by
  have hA := (reach_inv hre).1
  unfold possCount get_possibilities_at
  apply length_filter_impl
  intro n hp
  rw [decide_eq_true_eq] at hp ⊢
  have hval : (insert_number_at s r c v).constraints r2 c2 n =
      s.constraints r2 c2 n + 1 * sweepDelta r c v r2 c2 n := by
    show (if r2 = r ∧ c2 = c ∧ n = v then 0 else sweeps s r c v 1 r2 c2 n) = _
    rw [if_neg (fun hcc => hne ⟨hcc.1, hcc.2.1⟩)]
    rfl
  rw [hval] at hp
  have hd := sweepDelta_nonneg r c v r2 c2 n
  have hnn : 0 ≤ s.constraints r2 c2 n := by
    rw [hA.1 r2 c2 n]
    exact Int.natCast_nonneg _
  omega

/-- Witness for C6: committing 0 at (0,0) from the empty state, observing
cell (1,1). -/
theorem claim6_commit_shrinks_witness :
    possCount (insert_number_at new_sudoku 0 0 0) 1 1 ≤ possCount new_sudoku 1 1 :=
  claim6_commit_shrinks new_sudoku emptyG 0 0 0 1 1 Reach.init rfl rfl (by decide)

/-- Claim C7: on any state with an uncommitted cell, the selector returns
an uncommitted cell of minimal candidate count — the earliest in row-major
order among the minimizers — together with its candidate list. -/
theorem claim7_mrv_selection (s : sudoku) (h : ∃ i j, s.inserted i j = false) :
    ∃ r c, get_most_constrained_cell s = some (r, c, get_possibilities_at s r c) ∧
      s.inserted r c = false ∧
      (∀ i j, s.inserted i j = false → possCount s r c ≤ possCount s i j) ∧
      (∀ i j, s.inserted i j = false → possCount s i j = possCount s r c →
        (r : ℕ) * 9 + (c : ℕ) ≤ (i : ℕ) * 9 + (j : ℕ)) := by
  obtain ⟨r, c, h1, h2, h3, h4⟩ := mcc_spec s h
  exact ⟨r, c, h1, h2, h3, h4⟩

/-- Witness for C7: the empty state. -/
theorem claim7_mrv_selection_witness :
    ∃ r c, get_most_constrained_cell new_sudoku =
        some (r, c, get_possibilities_at new_sudoku r c) ∧
      new_sudoku.inserted r c = false ∧
      (∀ i j, new_sudoku.inserted i j = false →
        possCount new_sudoku r c ≤ possCount new_sudoku i j) ∧
      (∀ i j, new_sudoku.inserted i j = false →
        possCount new_sudoku i j = possCount new_sudoku r c →
        (r : ℕ) * 9 + (c : ℕ) ≤ (i : ℕ) * 9 + (j : ℕ)) :=
  claim7_mrv_selection new_sudoku ⟨0, 0, rfl⟩

/-- Claim C8: `solve` terminates on every valid reachable state; fuel
`82 - countFilled g` — at most 82 frames, i.e. at most 81 recursive
descents (one commit per frame) below the top — already suffices, and so
does the fixed budget 82 used by `solve`. -/
theorem claim8_terminates (s : sudoku) (g : Grid) (hre : Reach s g) :
    (∃ b s2, solveFuel (82 - countFilled g) s = some (b, s2)) ∧
    ∃ b s2, solve s = some (b, s2) := by
  obtain ⟨hA, hC⟩ := reach_inv hre
  obtain ⟨b1, s1, he1, _⟩ := solveFuel_spec (82 - countFilled g) s g hA hC (le_refl _)
  obtain ⟨b2, s2, he2, _⟩ :=
    solveFuel_spec 82 s g hA hC (by have := countFilled_le g; omega)
  exact ⟨⟨b1, s1, he1⟩, ⟨b2, s2, he2⟩⟩

/-- Witness for C8: the empty state. -/
theorem claim8_terminates_witness :
    (∃ b s2, solveFuel (82 - countFilled emptyG) new_sudoku = some (b, s2)) ∧
    ∃ b s2, solve new_sudoku = some (b, s2) :=
  claim8_terminates new_sudoku emptyG Reach.init

/-- Claim C9: when `solve` returns 0 on a valid reachable state, the state
is restored up to the diagnostic counter: constraint slots, committed
flags and the committed-cell counter are exactly as at entry. -/
theorem claim9_failure_restores (s : sudoku) (g : Grid) (s2 : sudoku)
    (hre : Reach s g) (hsol : solve s = some (false, s2)) :
    s2.constraints = s.constraints ∧ s2.inserted = s.inserted ∧
    s2.ninserted = s.ninserted := by
  obtain ⟨hA, hC⟩ := reach_inv hre
  obtain ⟨b, s3, heq, _, hfail, _⟩ :=
    solveFuel_spec 82 s g hA hC (by have := countFilled_le g; omega)
  rw [show solve s = solveFuel 82 s from rfl, heq] at hsol
  have hp := Option.some_inj.mp hsol
  have hb : b = false := congrArg Prod.fst hp
  have hs3 : s3 = s2 := congrArg Prod.snd hp
  have hcore := hfail hb
  rw [← hs3]
  exact ⟨hcore.1.symm, hcore.2.1.symm, hcore.2.2.symm⟩

set_option maxRecDepth 100000 in
/-- Witness for C9: the nine-commit dead-end state, on which `solve`
fails in one step and leaves everything but `nbacktracks` unchanged. -/
theorem claim9_failure_restores_witness :
    (incBack sBlock).constraints = sBlock.constraints ∧
    (incBack sBlock).inserted = sBlock.inserted ∧
    (incBack sBlock).ninserted = sBlock.ninserted := by
  have hre : Reach sBlock gBlock :=
    reach_insertList blockList new_sudoku emptyG Reach.init (by decide)
  have hmcc : get_most_constrained_cell sBlock = some (0, 0, ([] : List (Fin 9))) := by
    decide
  have hsol : solve sBlock = some (false, incBack sBlock) := by
    show solveFuel (81 + 1) sBlock = some (false, incBack sBlock)
    simp only [solveFuel]
    rw [if_neg (show ¬sBlock.ninserted = 81 by decide), hmcc]
    rfl
  exact claim9_failure_restores sBlock gBlock (incBack sBlock) hre hsol

/-- Claim C10: in a valid reachable state, querying a committed cell
returns exactly its committed value: the cell's own slot for that value is
0 and every other value's slot there is at least 1. -/
theorem claim10_committed_cell (s : sudoku) (g : Grid) (r c v : Fin 9)
    (hre : Reach s g) (hv : g r c = some v) :
    get_possibilities_at s r c = [v] ∧ possCount s r c = 1 ∧
    s.constraints r c v = 0 ∧ ∀ w, w ≠ v → 1 ≤ s.constraints r c w := by
  obtain ⟨hA, hC⟩ := reach_inv hre
  have hz : s.constraints r c v = 0 := by
    rw [hA.1 r c v, constraintsOf_self_zero hC hv]
    rfl
  have hge : ∀ w, w ≠ v → 1 ≤ s.constraints r c w := by
    intro w hw
    have hsingle : contrib r c v r c w ≤ constraintsOf g r c w := by
      have hs : cellContrib g (r, c) r c w ≤ ∑ p : Fin 9 × Fin 9, cellContrib g p r c w :=
        Finset.single_le_sum (f := fun p => cellContrib g p r c w)
          (fun i _ => Nat.zero_le _) (Finset.mem_univ (r, c))
      rw [cellContrib_at g r c v hv] at hs
      exact hs
    have hcv : contrib r c v r c w = 1 := by
      rw [contrib_self, if_neg hw]
    rw [hA.1 r c w]
    have h1 : 1 ≤ constraintsOf g r c w := by omega
    exact_mod_cast h1
  have hlist : get_possibilities_at s r c = [v] := by
    unfold get_possibilities_at
    have hpq : ∀ a ∈ List.finRange 9,
        (decide (s.constraints r c a = 0)) = (decide (a = v)) := by
      intro a _
      by_cases ha : a = v
      · rw [ha]
        simp [hz]
      · have h1 := hge a ha
        have h2 : ¬(s.constraints r c a = 0) := by omega
        simp [h2, ha]
    rw [List.filter_congr hpq, finRange_filter_eq_single]
  refine ⟨hlist, ?_, hz, hge⟩
  show (get_possibilities_at s r c).length = 1
  rw [hlist]
  rfl

/-- Witness for C10: the one-commit state, queried at its committed
cell (0,1). -/
theorem claim10_committed_cell_witness :
    get_possibilities_at sOne 0 1 = [4] ∧ possCount sOne 0 1 = 1 ∧
    sOne.constraints 0 1 4 = 0 ∧ ∀ w, w ≠ 4 → 1 ≤ sOne.constraints 0 1 w :=
  claim10_committed_cell sOne gOne 0 1 4
    (Reach.insert new_sudoku emptyG 0 1 4 Reach.init rfl rfl) (by decide)
